import Mathlib

/-!
# Verification of the ITBP agent session-state, retry and cache layer

Shallow embedding of `src/v1/agents/itbp_agent`:
  * `tools/memory.py` (memorize, forget, update_phase, _set_initial_states),
  * `shared_libraries/error_handling.py` (exception taxonomy, retry delays),
  * `shared_libraries/error_middleware.py` (handle_tool_errors),
  * `tools/deep_research.py` (SearchCache).

Python dicts are modelled as ordered association lists with at most one
binding per key; `datetime.now()` / `time.time()` values are passed in as
explicit parameters; functions that can raise return `Except`.
-/

namespace ITBP

/-- JSON-like values stored in the ADK session state (`tool_context.state`).
Python stores arbitrary objects; the keys the claims touch hold strings,
booleans, `None`, lists and dicts, which this universe covers. -/
inductive Value where
  | vStr : String → Value
  | vBool : Bool → Value
  | vNone : Value
  | vList : List Value → Value
  | vDict : List (String × Value) → Value
  deriving Repr

mutual

/-- Python `==` on stored values. -/
def Value.beq : Value → Value → Bool
  | .vStr a, .vStr b => a == b
  | .vBool a, .vBool b => a == b
  | .vNone, .vNone => true
  | .vList a, .vList b => Value.beqList a b
  | .vDict a, .vDict b => Value.beqDict a b
  | _, _ => false

/-- Python `==` on lists of stored values (element-wise). -/
def Value.beqList : List Value → List Value → Bool
  | [], [] => true
  | x :: xs, y :: ys => Value.beq x y && Value.beqList xs ys
  | _, _ => false

/-- Python `==` on dicts of stored values (as ordered association lists). -/
def Value.beqDict : List (String × Value) → List (String × Value) → Bool
  | [], [] => true
  | (k₁, v₁) :: xs, (k₂, v₂) :: ys => k₁ == k₂ && Value.beq v₁ v₂ && Value.beqDict xs ys
  | _, _ => false

end

mutual

/-- Python `==` is reflexive on the embedded value universe. -/
theorem Value.beq_refl : ∀ a : Value, a.beq a = true
  | .vStr _ => by simp [Value.beq]
  | .vBool _ => by simp [Value.beq]
  | .vNone => rfl
  | .vList l => by simp [Value.beq, Value.beqList_refl l]
  | .vDict l => by simp [Value.beq, Value.beqDict_refl l]

theorem Value.beqList_refl : ∀ l : List Value, Value.beqList l l = true
  | [] => rfl
  | x :: xs => by simp [Value.beqList, Value.beq_refl x, Value.beqList_refl xs]

theorem Value.beqDict_refl : ∀ l : List (String × Value), Value.beqDict l l = true
  | [] => rfl
  | (_, v) :: xs => by simp [Value.beqDict, Value.beq_refl v, Value.beqDict_refl xs]

end

/-- A Python `dict` with string keys: an ordered association list holding at
most one binding per key. -/
abbrev Dict (α : Type) := List (String × α)

namespace Dict

variable {α : Type}

/-- `key in d` (Python dict membership). -/
def hasKey : Dict α → String → Bool
  | [], _ => false
  | p :: d, k => p.1 == k || hasKey d k

/-- `d.get(key)` / guarded `d[key]`, returning `none` when the key is absent. -/
def lookup : Dict α → String → Option α
  | [], _ => none
  | p :: d, k => if p.1 == k then some p.2 else lookup d k

/-- `d[key] = value`: overwrite in place when the key exists (the binding
keeps its position), append when new — Python dict assignment. -/
def insert (d : Dict α) (k : String) (v : α) : Dict α :=
  if hasKey d k then d.map (fun p => if p.1 == k then (k, v) else p)
  else d ++ [(k, v)]

/-- `del d[key]` (on our unique-key representation: drop the binding). -/
def erase (d : Dict α) (k : String) : Dict α :=
  d.filter (fun p => ¬ (p.1 == k))

/-- `d.update(src)`: assign every binding of `src` into `d`, in order. -/
def update (d : Dict α) (src : Dict α) : Dict α :=
  src.foldl (fun acc p => insert acc p.1 p.2) d

theorem lookup_isSome_iff_hasKey (d : Dict α) (k : String) :
    (lookup d k).isSome = hasKey d k := by
  induction d with
  | nil => rfl
  | cons p d ih =>
    by_cases h : p.1 == k
    · simp [lookup, hasKey, h]
    · simpa [lookup, hasKey, h] using ih

theorem hasKey_of_lookup_eq_some {d : Dict α} {k : String} {v : α}
    (h : lookup d k = some v) : hasKey d k = true := by
  have := lookup_isSome_iff_hasKey d k
  rw [h] at this
  simpa using this.symm

theorem lookup_mapReplace_self (d : Dict α) (k : String) (v : α)
    (h : hasKey d k = true) :
    lookup (d.map (fun p => if p.1 == k then (k, v) else p)) k = some v := by
  induction d with
  | nil => simp [hasKey] at h
  | cons p d ih =>
    by_cases hp : p.1 == k
    · simp [lookup, hp]
    · have hd : hasKey d k = true := by simpa [hasKey, hp] using h
      simpa [lookup, hp] using ih hd

theorem lookup_append_single_self (d : Dict α) (k : String) (v : α)
    (h : hasKey d k = false) :
    lookup (d ++ [(k, v)]) k = some v := by
  induction d with
  | nil => simp [lookup]
  | cons p d ih =>
    have hp : (p.1 == k) = false := by
      rcases hb : (p.1 == k) with _ | _
      · rfl
      · simp [hasKey, hb] at h
    have hd : hasKey d k = false := by simpa [hasKey, hp] using h
    simpa [lookup, hp] using ih hd

theorem lookup_mapReplace_ne (d : Dict α) {k k' : String} (v : α) (h : k ≠ k') :
    lookup (d.map (fun p => if p.1 == k' then (k', v) else p)) k = lookup d k := by
  induction d with
  | nil => rfl
  | cons p d ih =>
    by_cases hp : p.1 == k'
    · have hpk : (p.1 == k) = false := by
        rcases hb : (p.1 == k) with _ | _
        · rfl
        · have e1 : p.1 = k' := beq_iff_eq.mp hp
          have e2 : p.1 = k := beq_iff_eq.mp hb
          exact absurd (e2 ▸ e1 ▸ rfl : k = k') h
      have hkk : (k' == k) = false := by
        rcases hb : (k' == k) with _ | _
        · rfl
        · exact absurd (beq_iff_eq.mp hb).symm h
      simp [lookup, hp, hpk, hkk]
      simpa using ih
    · by_cases hpk : p.1 == k
      · simp [lookup, hp, hpk]
      · simp [lookup, hp, hpk]
        simpa using ih

theorem lookup_append_single_ne (d : Dict α) {k k' : String} (v : α) (h : k ≠ k') :
    lookup (d ++ [(k', v)]) k = lookup d k := by
  have hkk : (k' == k) = false := by
    rcases hb : (k' == k) with _ | _
    · rfl
    · exact absurd (beq_iff_eq.mp hb).symm h
  induction d with
  | nil => simp [lookup, hkk]
  | cons p d ih =>
    by_cases hpk : p.1 == k
    · simp [lookup, hpk]
    · simpa [lookup, hpk] using ih

theorem lookup_insert_self (d : Dict α) (k : String) (v : α) :
    lookup (insert d k v) k = some v := by
  by_cases h : hasKey d k = true
  · rw [insert, if_pos h]
    exact lookup_mapReplace_self d k v h
  · rw [insert, if_neg h]
    exact lookup_append_single_self d k v (by simpa using h)

theorem lookup_insert_ne (d : Dict α) {k k' : String} (v : α) (h : k ≠ k') :
    lookup (insert d k' v) k = lookup d k := by
  by_cases hh : hasKey d k' = true
  · rw [insert, if_pos hh]
    exact lookup_mapReplace_ne d v h
  · rw [insert, if_neg hh]
    exact lookup_append_single_ne d v h

theorem hasKey_insert_self (d : Dict α) (k : String) (v : α) :
    hasKey (insert d k v) k = true := by
  have := lookup_isSome_iff_hasKey (insert d k v) k
  rw [lookup_insert_self] at this
  simpa using this.symm

theorem hasKey_insert_of (d : Dict α) {k : String} (k' : String) (v : α)
    (h : hasKey d k = true) : hasKey (insert d k' v) k = true := by
  by_cases hkk : k = k'
  · subst hkk; exact hasKey_insert_self d k v
  · have hs := lookup_isSome_iff_hasKey (insert d k' v) k
    rw [lookup_insert_ne d v hkk] at hs
    rw [← hs, lookup_isSome_iff_hasKey, h]

theorem lookup_erase_self (d : Dict α) (k : String) :
    lookup (erase d k) k = none := by
  induction d with
  | nil => rfl
  | cons p d ih =>
    by_cases hp : p.1 = k
    · simpa [erase, List.filter_cons, hp] using ih
    · simp only [erase, List.filter_cons] at ih ⊢
      simpa [hp, lookup] using ih

theorem lookup_erase_ne (d : Dict α) {k k' : String} (h : k ≠ k') :
    lookup (erase d k') k = lookup d k := by
  induction d with
  | nil => rfl
  | cons p d ih =>
    simp only [erase, List.filter_cons] at ih ⊢
    by_cases hp : p.1 = k'
    · have hpk : ¬ (p.1 = k) := fun he => h (he ▸ hp)
      simpa [hp, lookup, hpk, Ne.symm h] using ih
    · by_cases hpk : p.1 = k
      · simp [hp, lookup, hpk, h, Ne.symm h]
      · simpa [hp, lookup, hpk] using ih

theorem hasKey_iff_mem_keys (d : Dict α) (k : String) :
    hasKey d k = true ↔ k ∈ d.map Prod.fst := by
  induction d with
  | nil => simp [hasKey]
  | cons p d ih =>
    by_cases hp : p.1 == k
    · simp [hasKey, hp, beq_iff_eq.mp hp]
    · have : ¬ (p.1 = k) := fun he => by
        rw [he, beq_self_eq_true] at hp
        exact hp rfl
      simp [hasKey, hp, ih, this, Ne.symm this]

theorem mem_of_lookup_eq_some {d : Dict α} {k : String} {v : α}
    (h : lookup d k = some v) : (k, v) ∈ d := by
  induction d with
  | nil => cases h
  | cons p d ih =>
    by_cases hp : p.1 == k
    · rw [lookup, if_pos hp] at h
      injection h with h
      have : p = (k, v) := by
        rcases p with ⟨pk, pv⟩
        have : pk = k := beq_iff_eq.mp hp
        simp_all
      simp [this]
    · rw [lookup, if_neg (by simpa using hp)] at h
      exact List.mem_cons_of_mem p (ih h)

theorem lookup_of_mem_nodup {d : Dict α} {k : String} {v : α}
    (hmem : (k, v) ∈ d) (hnd : (d.map Prod.fst).Nodup) : lookup d k = some v := by
  induction d with
  | nil => cases hmem
  | cons p d ih =>
    rcases List.mem_cons.mp hmem with he | hmem'
    · rw [← he]
      simp [lookup]
    · have hk : k ∈ d.map Prod.fst :=
        List.mem_map.mpr ⟨(k, v), hmem', rfl⟩
      have hp : (p.1 == k) = false := by
        rcases hb : (p.1 == k) with _ | _
        · rfl
        · have : p.1 = k := beq_iff_eq.mp hb
          rw [List.map_cons, List.nodup_cons] at hnd
          exact absurd (this ▸ hk) hnd.1
      rw [lookup, if_neg (by simp [hp])]
      exact ih hmem' (by
        rw [List.map_cons, List.nodup_cons] at hnd
        exact hnd.2)

theorem erase_eq_self_of_not_hasKey (d : Dict α) (k : String)
    (h : hasKey d k = false) : erase d k = d := by
  induction d with
  | nil => rfl
  | cons p d ih =>
    have hp : ¬ (p.1 = k) := fun he => by simp [hasKey, he] at h
    have hd : hasKey d k = false := by simpa [hasKey, hp] using h
    rw [erase, List.filter_cons, if_pos (by simp [hp])]
    exact congrArg (List.cons p) (ih hd)

theorem length_erase_of_nodup (d : Dict α) (k : String)
    (hnd : (d.map Prod.fst).Nodup) (h : hasKey d k = true) :
    (erase d k).length + 1 = d.length := by
  induction d with
  | nil => cases h
  | cons p d ih =>
    rw [List.map_cons, List.nodup_cons] at hnd
    by_cases hp : p.1 = k
    · have hd : hasKey d k = false := by
        rcases hb : hasKey d k with _ | _
        · rfl
        · have : k ∈ d.map Prod.fst := (hasKey_iff_mem_keys d k).mp hb
          exact absurd (hp ▸ this) hnd.1
      rw [erase, List.filter_cons, if_neg (by simp [hp])]
      have he := erase_eq_self_of_not_hasKey d k hd
      rw [erase] at he
      rw [he, List.length_cons]
    · have hd : hasKey d k = true := by simpa [hasKey, hp] using h
      rw [erase, List.filter_cons, if_pos (by simp [hp])]
      have := ih hnd.2 hd
      rw [erase] at this
      simpa using this

theorem length_insert_of_hasKey (d : Dict α) (k : String) (v : α)
    (h : hasKey d k = true) : (insert d k v).length = d.length := by
  rw [insert, if_pos h, List.length_map]

theorem hasKey_update_of (d : Dict α) (src : Dict α) {k : String}
    (h : hasKey d k = true) : hasKey (update d src) k = true := by
  induction src generalizing d with
  | nil => simpa [update] using h
  | cons p src ih =>
    have h1 : hasKey (insert d p.1 p.2) k = true := hasKey_insert_of d p.1 p.2 h
    simpa [update, List.foldl_cons] using ih (insert d p.1 p.2) h1

end Dict

/- `shared_libraries/constants.py`: keys into the ADK session state. -/
namespace constants

def SYSTEM_TIME : String := "_time"
def ITBP_INITIALIZED : String := "_itbp_initialized"
def CURRENT_PHASE : String := "current_phase"
def PENDING_USER_ACTION : String := "pending_user_action"
def PHASE_HISTORY : String := "phase_history"

end constants

/-- The ADK session state (`tool_context.state`), a string-keyed dict. -/
abbrev StateMap := Dict Value

/-- Exceptions that the embedded Python fragments can raise. -/
inductive PyError where
  | keyError : String → PyError
  | typeError : String → PyError
  | attributeError : String → PyError
  deriving DecidableEq, Repr

/-- `tools/memory.py`, `memorize`, lines 59-62: ensure `phase_history`
exists (as `[]`) and append the departing phase `cur` to it unless `cur` is
already a member anywhere in the list. When the slot under `phase_history`
holds a non-list value, Python usually raises (`TypeError` at the `not in`
test, or `AttributeError` at `.append`) and aborts the whole `memorize`
call with the history — and everything after this point — unchanged; the
branch `| _ => st'` keeps the history unchanged but lets the call continue,
so the embedding of `memorize` is exact only on states whose
`phase_history` slot is absent or holds a list (`histOk` below). Theorems
that quantify over states beyond a fixed initial one therefore carry that
hypothesis. -/
def appendPrior (cur : Value) (st : StateMap) : StateMap :=
  let st' := if Dict.hasKey st constants.PHASE_HISTORY then st
             else Dict.insert st constants.PHASE_HISTORY (.vList [])
  match Dict.lookup st' constants.PHASE_HISTORY with
  | some (.vList h) =>
    if h.any (fun e => e.beq cur) then st'
    else Dict.insert st' constants.PHASE_HISTORY (.vList (h ++ [cur]))
  | _ => st'

/-- `tools/memory.py`, `memorize`, lines 56-62: the special handling for
phase transitions — when the key is `current_phase`, a current phase is
stored, and it differs from the new value, record it in the history. -/
def memorizePhaseHook (key value : String) (st : StateMap) : StateMap :=
  if key == constants.CURRENT_PHASE then
    match Dict.lookup st constants.CURRENT_PHASE with
    | some cur => if cur.beq (.vStr value) then st else appendPrior cur st
    | none => st
  else st

/-- `tools/memory.py`, `memorize`: run the phase-transition hook, then store
`value` under `key` and return the status message. The tool signature types
`value` as `str`. -/
def memorize (key value : String) (st : StateMap) : StateMap × String :=
  (Dict.insert (memorizePhaseHook key value st) key (.vStr value),
   "Stored \"" ++ key ++ "\": \"" ++ value ++ "\"")

/-- Python `list.remove(x)`: drop the first element equal to `x`. -/
def pyRemove : List Value → Value → List Value
  | [], _ => []
  | x :: xs, v => if x.beq v then xs else x :: pyRemove xs v

/-- `tools/memory.py`, `forget`: the code reads `tool_context.state[key]`
first, which raises `KeyError` when the key is absent (dict indexing); the
`is None` guard only replaces a stored `None` by `[]`. When the slot holds a
list, the value is removed if present (first occurrence) and the call
returns a status; a string slot does a substring test and `.remove` on a
`str` raises `AttributeError`; other slot types raise `TypeError` at the
`in` test. -/
def forget (key value : String) (st : StateMap) : Except PyError (StateMap × String) :=
  match Dict.lookup st key with
  | none => .error (.keyError key)
  | some v0 =>
    let st1 : StateMap := match v0 with
      | .vNone => Dict.insert st key (.vList [])
      | _ => st
    let status := "Removed \"" ++ key ++ "\": \"" ++ value ++ "\""
    match Dict.lookup st1 key with
    | some (.vList l) =>
      if l.any (fun e => e.beq (.vStr value)) then
        .ok (Dict.insert st1 key (.vList (pyRemove l (.vStr value))), status)
      else .ok (st1, status)
    | some (.vStr s) =>
      if value == "" || (s.splitOn value).length > 1 then .error (.attributeError "remove")
      else .ok (st1, status)
    | _ => .error (.typeError key)

/-- `tools/memory.py`, `update_phase`: memorize the new phase under
`current_phase`; memorize `pending_action` under `pending_user_action` only
when it is not `None`; no validation of `phase` is performed. The status
suffix is added only when `pending_action` is truthy (Python `if
pending_action`), so an empty string is stored but not echoed. -/
def update_phase (phase : String) (pending_action : Option String) (st : StateMap) :
    StateMap × String :=
  let r1 := memorize constants.CURRENT_PHASE phase st
  let st2 := match pending_action with
    | some a => (memorize constants.PENDING_USER_ACTION a r1.1).1
    | none => r1.1
  (st2,
   "Transitioned to phase: " ++ phase ++
     (match pending_action with
      | some a => if a == "" then "" else " with pending action: " ++ a
      | none => ""))

/-- `tools/memory.py`, `_set_initial_states`: set `_time` when absent; when
the `_itbp_initialized` marker is absent, set it, copy `source` in via
`dict.update`, and fill `current_phase` / `pending_user_action` /
`phase_history` / `_metadata` with their zero values when absent.
`datetime.now()` and `datetime.now().isoformat()` are passed in as the
explicit parameters `nowStr` and `isoStr`. -/
def _set_initial_states (nowStr isoStr : String) (source : Dict Value) (target : StateMap) :
    StateMap :=
  let t1 := if Dict.hasKey target constants.SYSTEM_TIME then target
            else Dict.insert target constants.SYSTEM_TIME (.vStr nowStr)
  if Dict.hasKey t1 constants.ITBP_INITIALIZED then t1
  else
    let t2 := Dict.insert t1 constants.ITBP_INITIALIZED (.vBool true)
    let t3 := Dict.update t2 source
    let t4 := if Dict.hasKey t3 constants.CURRENT_PHASE then t3
              else Dict.insert t3 constants.CURRENT_PHASE (.vStr "START")
    let t5 := if Dict.hasKey t4 constants.PENDING_USER_ACTION then t4
              else Dict.insert t4 constants.PENDING_USER_ACTION .vNone
    let t6 := if Dict.hasKey t5 constants.PHASE_HISTORY then t5
              else Dict.insert t5 constants.PHASE_HISTORY (.vList [])
    if Dict.hasKey t6 "_metadata" then t6
    else Dict.insert t6 "_metadata"
      (.vDict [("created_at", .vStr isoStr), ("last_updated", .vStr isoStr),
               ("version", .vStr "1.0"), ("state_history", .vList [])])

/-- A freshly initialized session: `_set_initial_states` applied to an empty
state with an empty `source` map (concrete timestamps chosen arbitrarily). -/
def initSession : StateMap :=
  _set_initial_states "2025-01-01 00:00:00" "2025-01-01T00:00:00" [] []

/-- A sequence of `memorize(CURRENT_PHASE, p)` calls, left to right. -/
def runPhases (st : StateMap) (ps : List String) : StateMap :=
  ps.foldl (fun s p => (memorize constants.CURRENT_PHASE p s).1) st

/-- One history update as performed by `memorize`: append the departed phase
unless it is already a member anywhere in the history. -/
def recordPrior (acc : List String) (x : String) : List String :=
  if x ∈ acc then acc else acc ++ [x]

/-- The prior-phase values at actual phase changes: scanning the calls from
current phase `c`, each call `set(CURRENT_PHASE, p)` with `p ≠ c` contributes
the departed `c`. -/
def changedPriors : String → List String → List String
  | _, [] => []
  | c, p :: ps => (if c = p then [] else [c]) ++ changedPriors p ps

/-- Keep only the first occurrence of each element (global deduplication). -/
def firstOccurrences (l : List String) : List String :=
  l.foldl recordPrior []

/-- The prior-phase value before each call in the sequence, starting from
current phase `c0` (the phrase used by the claim). -/
def priorPhases (c0 : String) (ps : List String) : List String :=
  (c0 :: ps).dropLast

/-- Collapse consecutive duplicates — the deduplication rule the claim
asserts for `PHASE_HISTORY` (a phase is dropped only when it equals the
immediately preceding recorded phase). Stated from the claim's words, to be
compared against the behaviour of `memorize`. -/
def collapseConsecutive : List String → List String
  | [] => []
  | [x] => [x]
  | x :: y :: t =>
    if x = y then collapseConsecutive (y :: t) else x :: collapseConsecutive (y :: t)

/-- The `PHASE_HISTORY` contents the claim predicts after a call sequence. -/
def claimedHistory (c0 : String) (ps : List String) : List String :=
  collapseConsecutive (priorPhases c0 ps)

/-- Length of the list stored in an optional `vList`, used to separate
unequal history values. -/
def histLen : Option Value → Nat
  | some (.vList l) => l.length
  | _ => 0

theorem current_ne_history : constants.CURRENT_PHASE ≠ constants.PHASE_HISTORY := by
  decide

theorem pending_ne_current :
    constants.PENDING_USER_ACTION ≠ constants.CURRENT_PHASE := by
  decide

theorem pending_ne_history :
    constants.PENDING_USER_ACTION ≠ constants.PHASE_HISTORY := by
  decide

theorem any_beq_vStr (hist : List String) (c : String) :
    ((hist.map Value.vStr).any (fun e => e.beq (.vStr c))) = decide (c ∈ hist) := by
  induction hist with
  | nil => rfl
  | cons a hist ih =>
    have hac : (a == c) = decide (c = a) := by
      rcases hb : a == c with _ | _
      · have : ¬ (c = a) := fun h => by
          rw [h, beq_self_eq_true] at hb
          cases hb
        simp [this]
      · simp [(beq_iff_eq.mp hb).symm]
    simp only [List.map_cons, List.any_cons, ih, Value.beq, List.mem_cons, hac]
    by_cases h1 : c = a <;> by_cases h2 : c ∈ hist <;> simp [h1, h2]

theorem not_mem_of_not_any_beq {l : List Value} {cur : Value}
    (h : (l.any (fun e => e.beq cur)) = false) : cur ∉ l := by
  intro hm
  have ht : (l.any (fun e => e.beq cur)) = true :=
    List.any_eq_true.mpr ⟨cur, hm, Value.beq_refl cur⟩
  rw [h] at ht
  cases ht

/-- The state after `memorize(CURRENT_PHASE, p)` on a state whose current
phase is `c` and whose history is `hist`: the new phase is stored, and the
history gains `c` exactly when the phase changed and `c` is not already a
member. -/
theorem memorize_phase_step (st : StateMap) (c p : String) (hist : List String)
    (hc : Dict.lookup st constants.CURRENT_PHASE = some (.vStr c))
    (hh : Dict.lookup st constants.PHASE_HISTORY = some (.vList (hist.map .vStr))) :
    Dict.lookup (memorize constants.CURRENT_PHASE p st).1 constants.CURRENT_PHASE
        = some (.vStr p)
    ∧ Dict.lookup (memorize constants.CURRENT_PHASE p st).1 constants.PHASE_HISTORY
        = some (.vList ((if c = p then hist else recordPrior hist c).map .vStr)) := by
  have hhk : Dict.hasKey st constants.PHASE_HISTORY = true :=
    Dict.hasKey_of_lookup_eq_some hh
  by_cases hcp : c = p
  · subst hcp
    have e : (memorize constants.CURRENT_PHASE c st).1
        = Dict.insert st constants.CURRENT_PHASE (.vStr c) := by
      simp [memorize, memorizePhaseHook, hc, Value.beq]
    rw [e]
    refine ⟨Dict.lookup_insert_self st constants.CURRENT_PHASE (.vStr c), ?_⟩
    rw [Dict.lookup_insert_ne st (Value.vStr c) current_ne_history.symm, hh]
    simp
  · have hba : (c == p) = false := by
      rcases hb : (c == p) with _ | _
      · rfl
      · exact absurd (beq_iff_eq.mp hb) hcp
    by_cases hmem : c ∈ hist
    · have e : (memorize constants.CURRENT_PHASE p st).1
          = Dict.insert st constants.CURRENT_PHASE (.vStr p) := by
        simp [memorize, memorizePhaseHook, appendPrior, hc, Value.beq, hba, hhk, hh, any_beq_vStr, hmem]
      rw [e]
      refine ⟨Dict.lookup_insert_self st constants.CURRENT_PHASE (.vStr p), ?_⟩
      rw [Dict.lookup_insert_ne st (Value.vStr p) current_ne_history.symm, hh]
      simp [hcp, recordPrior, hmem]
    · have e : (memorize constants.CURRENT_PHASE p st).1
          = Dict.insert
              (Dict.insert st constants.PHASE_HISTORY
                (Value.vList (hist.map Value.vStr ++ [Value.vStr c])))
              constants.CURRENT_PHASE (.vStr p) := by
        simp [memorize, memorizePhaseHook, appendPrior, hc, Value.beq, hba, hhk, hh, any_beq_vStr, hmem]
      rw [e]
      constructor
      · exact Dict.lookup_insert_self
          (Dict.insert st constants.PHASE_HISTORY
            (Value.vList (hist.map Value.vStr ++ [Value.vStr c])))
          constants.CURRENT_PHASE (Value.vStr p)
      · rw [Dict.lookup_insert_ne _ (Value.vStr p) current_ne_history.symm,
          Dict.lookup_insert_self st constants.PHASE_HISTORY]
        simp [hcp, recordPrior, hmem]

/-- Running a sequence of phase writes accumulates exactly the changed prior
phases, deduplicated against membership anywhere in the history. -/
theorem runPhases_invariant (ps : List String) :
    ∀ (st : StateMap) (c : String) (hist : List String),
    Dict.lookup st constants.CURRENT_PHASE = some (.vStr c) →
    Dict.lookup st constants.PHASE_HISTORY = some (.vList (hist.map .vStr)) →
    Dict.lookup (runPhases st ps) constants.PHASE_HISTORY
        = some (.vList ((List.foldl recordPrior hist (changedPriors c ps)).map .vStr))
    ∧ Dict.lookup (runPhases st ps) constants.CURRENT_PHASE
        = some (.vStr (ps.foldl (fun _ p => p) c)) := by
  induction ps with
  | nil =>
    intro st c hist hc hh
    exact ⟨by simpa [runPhases, changedPriors] using hh, by simpa [runPhases] using hc⟩
  | cons p ps ih =>
    intro st c hist hc hh
    obtain ⟨hc', hh'⟩ := memorize_phase_step st c p hist hc hh
    have hrun : runPhases st (p :: ps)
        = runPhases (memorize constants.CURRENT_PHASE p st).1 ps := rfl
    rw [hrun]
    obtain ⟨ihh, ihc⟩ := ih (memorize constants.CURRENT_PHASE p st).1 p
      (if c = p then hist else recordPrior hist c) hc' hh'
    have hfold : List.foldl recordPrior hist (changedPriors c (p :: ps))
        = List.foldl recordPrior (if c = p then hist else recordPrior hist c)
            (changedPriors p ps) := by
      by_cases hcp : c = p <;> simp [changedPriors, hcp]
    constructor
    · rw [hfold]
      exact ihh
    · simpa using ihc

/-- `appendPrior` only ever writes the `phase_history` slot. -/
theorem appendPrior_lookup_other (cur : Value) (st : StateMap) {k : String}
    (hk : k ≠ constants.PHASE_HISTORY) :
    Dict.lookup (appendPrior cur st) k = Dict.lookup st k := by
  unfold appendPrior
  by_cases hh : Dict.hasKey st constants.PHASE_HISTORY = true
  · simp only [hh, if_true]
    split
    · split
      · rfl
      · exact Dict.lookup_insert_ne st _ hk
    · rfl
  · simp only [hh, Bool.false_eq_true, if_false]
    split
    · split
      · exact Dict.lookup_insert_ne st _ hk
      · rw [Dict.lookup_insert_ne _ _ hk, Dict.lookup_insert_ne st _ hk]
    · exact Dict.lookup_insert_ne st _ hk

/-- The phase-transition hook only ever writes the `phase_history` slot. -/
theorem memorizePhaseHook_lookup_other (key value : String) (st : StateMap) {k : String}
    (hk : k ≠ constants.PHASE_HISTORY) :
    Dict.lookup (memorizePhaseHook key value st) k = Dict.lookup st k := by
  unfold memorizePhaseHook
  split
  · split
    · split
      · rfl
      · exact appendPrior_lookup_other _ st hk
    · rfl
  · rfl

/-- A slot different from `key` and from `phase_history` is untouched by
`memorize`. -/
theorem memorize_lookup_other (key value : String) (st : StateMap) {k : String}
    (h1 : k ≠ key) (h2 : k ≠ constants.PHASE_HISTORY) :
    Dict.lookup (memorize key value st).1 k = Dict.lookup st k := by
  show Dict.lookup (Dict.insert (memorizePhaseHook key value st) key (.vStr value)) k
      = Dict.lookup st k
  rw [Dict.lookup_insert_ne _ _ h1]
  exact memorizePhaseHook_lookup_other key value st h2

/-- `memorize` unconditionally stores `value` under `key` (last step of the
function). -/
theorem memorize_lookup_self (key value : String) (st : StateMap) :
    Dict.lookup (memorize key value st).1 key = some (.vStr value) :=
  Dict.lookup_insert_self (memorizePhaseHook key value st) key (.vStr value)

/-- The `phase_history` slot is absent or holds a list. This holds of every
session reachable through `_set_initial_states` and the tools, and it is
exactly the territory on which the embedding of `memorize` is exact: on a
non-list history Python can raise mid-call (see `appendPrior`). -/
def histOk (st : StateMap) : Prop :=
  ∀ v, Dict.lookup st constants.PHASE_HISTORY = some v → ∃ l, v = Value.vList l

/-- The freshly initialized session satisfies `histOk` (its history is the
empty list). -/
theorem histOk_initSession : histOk initSession := by
  intro v hv
  have h2 : some (Value.vList []) = some v := hv
  injection h2 with h2
  exact ⟨[], h2.symm⟩

/-- The `phase_history` slot, whenever it holds a list, holds a
duplicate-free list. -/
def histNodup (st : StateMap) : Prop :=
  ∀ l, Dict.lookup st constants.PHASE_HISTORY = some (.vList l) → l.Nodup

theorem appendPrior_histNodup (cur : Value) (st : StateMap) (h : histNodup st) :
    histNodup (appendPrior cur st) := by
  intro l hl
  unfold appendPrior at hl
  by_cases hh : Dict.hasKey st constants.PHASE_HISTORY = true
  · simp only [hh, if_true] at hl
    split at hl
    next hlist heq =>
      split at hl
      next => exact h l hl
      next hmem =>
        rw [Dict.lookup_insert_self st constants.PHASE_HISTORY] at hl
        injection hl with hl
        injection hl with hl
        have hnd : hlist.Nodup := h hlist heq
        have hcur : cur ∉ hlist :=
          not_mem_of_not_any_beq (by simpa using hmem)
        rw [← hl]
        simp [List.nodup_append, hnd, hcur]
    next => exact h l hl
  · simp only [hh, Bool.false_eq_true, if_false,
      Dict.lookup_insert_self st constants.PHASE_HISTORY] at hl
    simp only [List.any_nil, Bool.false_eq_true, if_false] at hl
    rw [Dict.lookup_insert_self] at hl
    injection hl with hl
    injection hl with hl
    rw [← hl]
    simp

theorem memorizePhaseHook_histNodup (key value : String) (st : StateMap)
    (h : histNodup st) : histNodup (memorizePhaseHook key value st) := by
  unfold memorizePhaseHook
  split
  · split
    · split
      · exact h
      · exact appendPrior_histNodup _ st h
    · exact h
  · exact h

/-- The eleven-value Phase set: `START` (the initial phase written by
`_set_initial_states`) together with the ten workflow phases enumerated in
`prompt.py` (`<workflow_phases>`) and in the spec's data model. The tools
themselves never consult this set. -/
def phaseSet : List String :=
  ["START", "GET_IDEA", "ANALYST_BRAINSTORM", "ANALYST_RESEARCH_PROMPT_REVIEW",
   "ANALYST_RESEARCH", "ANALYST_BRIEF", "PM_DEFINE", "ARCHITECT_DESIGN",
   "POSM_VALIDATE", "POSM_STORIES", "FINISHED"]

/-- C1 (counterexample): on the initialized session, after the call sequence
`A, B, A, B` the stored `PHASE_HISTORY` is `[START, A, B]`, which differs
from the claimed consecutive-duplicate collapse of the prior-phase values
(`[START, A, B, A]`), and its last element `B` equals the current phase. -/
theorem memorize_history_claim_false :
    Dict.lookup (runPhases initSession ["A", "B", "A", "B"]) constants.PHASE_HISTORY
        ≠ some (.vList ((claimedHistory "START" ["A", "B", "A", "B"]).map .vStr))
    ∧ Dict.lookup (runPhases initSession ["A", "B", "A", "B"]) constants.PHASE_HISTORY
        = some (.vList [Value.vStr "START", Value.vStr "A", Value.vStr "B"])
    ∧ Dict.lookup (runPhases initSession ["A", "B", "A", "B"]) constants.CURRENT_PHASE
        = some (.vStr "B") := by
  refine ⟨?_, rfl, rfl⟩
  intro h
  have hlen := congrArg histLen h
  rw [show histLen (Dict.lookup (runPhases initSession ["A", "B", "A", "B"])
        constants.PHASE_HISTORY) = 3 from rfl,
      show histLen (some (.vList
        ((claimedHistory "START" ["A", "B", "A", "B"]).map .vStr))) = 4 from rfl] at hlen
  exact absurd hlen (by norm_num)

/-- C1 (amended): for every sequence of `memorize(CURRENT_PHASE, p)` calls
on an initialized session (current phase stored, history empty), the
resulting `PHASE_HISTORY` equals the sequence of prior-phase values at
actual phase changes with every later repetition dropped — deduplication is
global (a prior phase is appended only when not already a member anywhere in
the history), not merely against the immediately preceding entry — and the
history's last element may coincide with the current phase. -/
theorem memorize_history_global_dedup (st : StateMap) (c0 : String) (ps : List String)
    (hc : Dict.lookup st constants.CURRENT_PHASE = some (.vStr c0))
    (hh : Dict.lookup st constants.PHASE_HISTORY = some (.vList [])) :
    Dict.lookup (runPhases st ps) constants.PHASE_HISTORY
      = some (.vList ((firstOccurrences (changedPriors c0 ps)).map .vStr)) := by
  have hh' : Dict.lookup st constants.PHASE_HISTORY
      = some (.vList (([] : List String).map .vStr)) := by simpa using hh
  exact (runPhases_invariant ps st c0 [] hc hh').1

/-- C1 witness: the amended theorem applied to the freshly initialized
session and the call sequence `A, B`. -/
theorem memorize_history_global_dedup_witness :
    Dict.lookup (runPhases initSession ["A", "B"]) constants.PHASE_HISTORY
      = some (.vList ((firstOccurrences (changedPriors "START" ["A", "B"])).map .vStr)) :=
  memorize_history_global_dedup initSession "START" ["A", "B"] rfl rfl

/-- C9: every `memorize` call preserves the invariant that the
`phase_history` slot, whenever it holds a list, holds a list without
duplicates — the departing phase is appended only when it is not already a
member anywhere in the history. -/
theorem memorize_preserves_histNodup (key value : String) (st : StateMap)
    (h : histNodup st) : histNodup (memorize key value st).1 := by
  intro l hl
  by_cases hk : key = constants.PHASE_HISTORY
  · subst hk
    rw [show (memorize constants.PHASE_HISTORY value st).1
        = Dict.insert (memorizePhaseHook constants.PHASE_HISTORY value st)
            constants.PHASE_HISTORY (.vStr value) from rfl,
      Dict.lookup_insert_self] at hl
    cases hl
  · rw [show (memorize key value st).1
        = Dict.insert (memorizePhaseHook key value st) key (.vStr value) from rfl,
      Dict.lookup_insert_ne _ _ (fun he => hk he.symm)] at hl
    exact memorizePhaseHook_histNodup key value st h l hl

/-- C9 witness: the invariant-preservation theorem applied to a concrete
call on the freshly initialized session (whose history is the empty list). -/
theorem memorize_preserves_histNodup_witness :
    histNodup (memorize constants.CURRENT_PHASE "GET_IDEA" initSession).1 :=
  memorize_preserves_histNodup constants.CURRENT_PHASE "GET_IDEA" initSession
    (by
      intro l hl
      have h2 : (some (Value.vList []) : Option Value) = some (.vList l) := hl
      injection h2 with h2
      injection h2 with h2
      rw [← h2]
      simp)

/-- C2 (counterexample): `update_phase` accepts a string outside the
eleven-value Phase set: the call returns its normal success status and the
non-member phase is written to `current_phase`; no validation failure
occurs (the embedded function is total — the Python code has no validation
step and raises nothing). -/
theorem update_phase_no_validation :
    ("NOT_A_PHASE" ∉ phaseSet)
    ∧ (update_phase "NOT_A_PHASE" none initSession).2
        = "Transitioned to phase: NOT_A_PHASE"
    ∧ Dict.lookup (update_phase "NOT_A_PHASE" none initSession).1 constants.CURRENT_PHASE
        = some (.vStr "NOT_A_PHASE") :=
  ⟨by decide, rfl, rfl⟩

/-- C2 (amended): `update_phase` performs no membership validation: on any
session whose phase-history slot is absent or list-valued (every reachable
session; elsewhere Python can raise for unrelated reasons, see
`appendPrior`), the call with any phase string — member of the Phase set or
not — succeeds with the `Transitioned to phase:` status and writes the new
phase to `current_phase`. -/
theorem update_phase_writes_any_phase (phase : String) (pa : Option String)
    (st : StateMap) (_hok : histOk st) :
    Dict.lookup (update_phase phase pa st).1 constants.CURRENT_PHASE
        = some (.vStr phase)
    ∧ (update_phase phase pa st).2
        = "Transitioned to phase: " ++ phase ++
            (match pa with
             | some a => if a == "" then "" else " with pending action: " ++ a
             | none => "") := by
  refine ⟨?_, rfl⟩
  cases pa with
  | none => exact memorize_lookup_self constants.CURRENT_PHASE phase st
  | some a =>
    show Dict.lookup (memorize constants.PENDING_USER_ACTION a
        (memorize constants.CURRENT_PHASE phase st).1).1 constants.CURRENT_PHASE
      = some (.vStr phase)
    rw [memorize_lookup_other _ _ _ pending_ne_current.symm current_ne_history]
    exact memorize_lookup_self constants.CURRENT_PHASE phase st

/-- C2 witness: the amended theorem applied to the initialized session, a
non-member phase and a pending action. -/
theorem update_phase_writes_any_phase_witness :
    Dict.lookup (update_phase "NOT_A_PHASE" (some "REVIEW_PRD") initSession).1
        constants.CURRENT_PHASE = some (.vStr "NOT_A_PHASE")
    ∧ (update_phase "NOT_A_PHASE" (some "REVIEW_PRD") initSession).2
        = "Transitioned to phase: " ++ "NOT_A_PHASE" ++
            (match some "REVIEW_PRD" with
             | some a => if a == "" then "" else " with pending action: " ++ a
             | none => "") :=
  update_phase_writes_any_phase "NOT_A_PHASE" (some "REVIEW_PRD") initSession
    histOk_initSession

/-- C3: the `forget` tool raises `KeyError` on a missing key — the
`state[key]` read on line 81 indexes the mapping before the `is None` guard
can help — while on a present list-valued key with an absent value it is a
no-op returning the normal `Removed` status. The first conjunct exhibits the
failing input for the claim; the second shows the absent-value half of the
claim does hold. -/
theorem forget_missing_key_raises :
    forget "user_input_idea" "x" [] = Except.error (.keyError "user_input_idea")
    ∧ forget "user_input_idea" "x" [("user_input_idea", .vList [])]
        = Except.ok ([("user_input_idea", .vList [])],
            "Removed \"user_input_idea\": \"x\"") :=
  ⟨rfl, rfl⟩

/-- C8: on any session whose phase-history slot is absent or list-valued
(every reachable session; elsewhere the Python call can abort mid-way, see
`appendPrior`), `update_phase` with `pending_action` omitted (`None`) leaves
the stored `pending_user_action` slot exactly as it was — it is not cleared
— and the slot is written precisely when a pending action is provided. -/
theorem update_phase_pending_frame (phase : String) (st : StateMap)
    (_hok : histOk st) :
    Dict.lookup (update_phase phase none st).1 constants.PENDING_USER_ACTION
        = Dict.lookup st constants.PENDING_USER_ACTION
    ∧ ∀ a, Dict.lookup (update_phase phase (some a) st).1 constants.PENDING_USER_ACTION
        = some (.vStr a) := by
  constructor
  · show Dict.lookup (memorize constants.CURRENT_PHASE phase st).1
        constants.PENDING_USER_ACTION
      = Dict.lookup st constants.PENDING_USER_ACTION
    exact memorize_lookup_other _ _ _ pending_ne_current pending_ne_history
  · intro a
    exact memorize_lookup_self constants.PENDING_USER_ACTION a
      (memorize constants.CURRENT_PHASE phase st).1

/-- C8 witness: the frame theorem applied to the initialized session — the
pending slot (holding `None`) survives a phase-only transition, and is
written when a pending action is passed. -/
theorem update_phase_pending_frame_witness :
    Dict.lookup (update_phase "PM_DEFINE" none initSession).1
        constants.PENDING_USER_ACTION
      = Dict.lookup initSession constants.PENDING_USER_ACTION
    ∧ Dict.lookup (update_phase "PM_DEFINE" (some "REVIEW_PRD") initSession).1
        constants.PENDING_USER_ACTION = some (.vStr "REVIEW_PRD") :=
  ⟨(update_phase_pending_frame "PM_DEFINE" initSession histOk_initSession).1,
   (update_phase_pending_frame "PM_DEFINE" initSession histOk_initSession).2
     "REVIEW_PRD"⟩

/-- A key survives a conditional fill step `if <key present> then d else
d[k'] = v`. -/
theorem hasKey_condFill {d : Dict Value} {k : String} (h : Dict.hasKey d k = true)
    (c : Prop) [Decidable c] (k' : String) (v : Value) :
    Dict.hasKey (if c then d else Dict.insert d k' v) k = true := by
  by_cases hc : c
  · simpa [hc] using h
  · simpa [hc] using Dict.hasKey_insert_of d k' v h

/-- After a first `_set_initial_states` call both marker keys (`_time` and
`_itbp_initialized`) are present. -/
theorem set_initial_states_markers (nowStr isoStr : String) (source : Dict Value)
    (target : StateMap) :
    Dict.hasKey (_set_initial_states nowStr isoStr source target)
        constants.SYSTEM_TIME = true
    ∧ Dict.hasKey (_set_initial_states nowStr isoStr source target)
        constants.ITBP_INITIALIZED = true := by
  unfold _set_initial_states
  by_cases h1 : Dict.hasKey target constants.SYSTEM_TIME = true
  all_goals
    simp only [h1, if_true, Bool.false_eq_true, if_false]
  case pos =>
    by_cases h2 : Dict.hasKey target constants.ITBP_INITIALIZED = true
    all_goals simp only [h2, if_true, Bool.false_eq_true, if_false]
    case pos => exact ⟨h1, trivial⟩
    case neg =>
      have hs : Dict.hasKey (Dict.update
          (Dict.insert target constants.ITBP_INITIALIZED (.vBool true)) source)
          constants.SYSTEM_TIME = true :=
        Dict.hasKey_update_of _ source (Dict.hasKey_insert_of _ _ _ h1)
      have hi : Dict.hasKey (Dict.update
          (Dict.insert target constants.ITBP_INITIALIZED (.vBool true)) source)
          constants.ITBP_INITIALIZED = true :=
        Dict.hasKey_update_of _ source (Dict.hasKey_insert_self _ _ _)
      exact ⟨hasKey_condFill (hasKey_condFill (hasKey_condFill (hasKey_condFill
          hs _ _ _) _ _ _) _ _ _) _ _ _,
        hasKey_condFill (hasKey_condFill (hasKey_condFill (hasKey_condFill
          hi _ _ _) _ _ _) _ _ _) _ _ _⟩
  case neg =>
    have h1' : Dict.hasKey (Dict.insert target constants.SYSTEM_TIME (.vStr nowStr))
        constants.SYSTEM_TIME = true := Dict.hasKey_insert_self _ _ _
    by_cases h2 : Dict.hasKey (Dict.insert target constants.SYSTEM_TIME (.vStr nowStr))
        constants.ITBP_INITIALIZED = true
    all_goals simp only [h2, if_true, Bool.false_eq_true, if_false]
    case pos => exact ⟨h1', trivial⟩
    case neg =>
      have hs : Dict.hasKey (Dict.update
          (Dict.insert (Dict.insert target constants.SYSTEM_TIME (.vStr nowStr))
            constants.ITBP_INITIALIZED (.vBool true)) source)
          constants.SYSTEM_TIME = true :=
        Dict.hasKey_update_of _ source (Dict.hasKey_insert_of _ _ _ h1')
      have hi : Dict.hasKey (Dict.update
          (Dict.insert (Dict.insert target constants.SYSTEM_TIME (.vStr nowStr))
            constants.ITBP_INITIALIZED (.vBool true)) source)
          constants.ITBP_INITIALIZED = true :=
        Dict.hasKey_update_of _ source (Dict.hasKey_insert_self _ _ _)
      exact ⟨hasKey_condFill (hasKey_condFill (hasKey_condFill (hasKey_condFill
          hs _ _ _) _ _ _) _ _ _) _ _ _,
        hasKey_condFill (hasKey_condFill (hasKey_condFill (hasKey_condFill
          hi _ _ _) _ _ _) _ _ _) _ _ _⟩

/-- C7: `_set_initial_states` is idempotent — a second call on an
already-initialized session, with arbitrary (different) default maps and
timestamps, changes nothing: no key from the second defaults map and no
zero-value fill overwrites existing state, because the whole initialization
body is guarded by the `_itbp_initialized` marker set during the first call
(and `_time` is likewise only written when absent). -/
theorem set_initial_states_idempotent (now1 iso1 now2 iso2 : String)
    (s1 s2 : Dict Value) (t : StateMap) :
    _set_initial_states now2 iso2 s2 (_set_initial_states now1 iso1 s1 t)
      = _set_initial_states now1 iso1 s1 t := by
  obtain ⟨h1, h2⟩ := set_initial_states_markers now1 iso1 s1 t
  conv_lhs => rw [_set_initial_states]
  simp only [h1, if_true, h2]

/- `shared_libraries/logging_config.py`: the error-category and retry-policy
enumerations. -/

/-- `ErrorCategory` enum. -/
inductive ErrorCategory where
  | CONFIGURATION | NETWORK | STATE | VALIDATION | EXTERNAL_SERVICE
  | INTERNAL | SECURITY | USER_INPUT | RESOURCE | UNKNOWN
  deriving DecidableEq, Repr

/-- `RetryPolicy` enum. -/
inductive RetryPolicy where
  | NO_RETRY | IMMEDIATE | EXPONENTIAL_BACKOFF | LINEAR_BACKOFF | CONSTANT_DELAY
  deriving DecidableEq, Repr

/- `shared_libraries/error_handling.py`: the exception taxonomy. Python
exceptions are embedded as an inductive: the project's own
`ITBPMethodError` hierarchy carries its class name, `str(e)` message,
category, retry policy and resolved user message; the Python builtins the
middleware inspects get one constructor each. -/

/-- Exceptions crossing the wrapped boundaries. -/
inductive Exc where
  | itbp (name msg : String) (category : ErrorCategory) (retryPolicy : RetryPolicy)
      (userMessage : String)
  | connectionError (msg : String)
  | timeoutError (msg : String)
  | permissionError (msg : String)
  | fileNotFoundError (msg : String)
  | valueError (msg : String)
  | keyErrorExc (msg : String)
  | typeErrorExc (msg : String)
  | importError (msg : String)
  | otherExc (name msg : String)
  deriving DecidableEq, Repr

/-- `ITBPMethodError._get_default_user_message`: the category → canned
user-facing message table (every category is present in the dict, so the
`base_msg` fallback of the Python `.get` is unreachable). -/
def getDefaultUserMessage : ErrorCategory → String
  | .CONFIGURATION => "A configuration error occurred. Please check your settings."
  | .NETWORK => "A network error occurred. Please check your connection and try again."
  | .STATE => "A state management error occurred. Your session may need to be restarted."
  | .VALIDATION => "A validation error occurred. Please check your inputs."
  | .EXTERNAL_SERVICE => "An external service error occurred. The service may be unavailable."
  | .INTERNAL => "An internal error occurred. Please try again later."
  | .SECURITY => "A security error occurred. Please check your credentials."
  | .USER_INPUT => "An input error occurred. Please check your input and try again."
  | .RESOURCE => "A resource error occurred. The requested resource may not be available."
  | .UNKNOWN => "An unexpected error occurred. Please try again later."

/-- `ITBPMethodError.__init__`: `self.user_message = user_message or
self._get_default_user_message(...)` — Python `or` falls through both on
`None` and on the empty (falsy) string. -/
def mkITBPError (name msg : String) (category : ErrorCategory)
    (retryPolicy : RetryPolicy) (userMessage : Option String) : Exc :=
  .itbp name msg category retryPolicy
    (match userMessage with
     | some u => if u == "" then getDefaultUserMessage category else u
     | none => getDefaultUserMessage category)

/-- `ValidationError(message, user_message)`: category `VALIDATION`, policy
`NO_RETRY`. -/
def ValidationError (msg : String) (userMessage : Option String) : Exc :=
  mkITBPError "ValidationError" msg .VALIDATION .NO_RETRY userMessage

/-- `NetworkError(message, user_message)`: category `NETWORK`, policy
`EXPONENTIAL_BACKOFF`. -/
def NetworkError (msg : String) (userMessage : Option String) : Exc :=
  mkITBPError "NetworkError" msg .NETWORK .EXPONENTIAL_BACKOFF userMessage

/-- `ConfigurationError(message, user_message)`: category `CONFIGURATION`,
policy `NO_RETRY`. -/
def ConfigurationError (msg : String) (userMessage : Option String) : Exc :=
  mkITBPError "ConfigurationError" msg .CONFIGURATION .NO_RETRY userMessage

/-- `type(e).__name__` for the embedded exceptions. -/
def Exc.pyName : Exc → String
  | .itbp name _ _ _ _ => name
  | .connectionError _ => "ConnectionError"
  | .timeoutError _ => "TimeoutError"
  | .permissionError _ => "PermissionError"
  | .fileNotFoundError _ => "FileNotFoundError"
  | .valueError _ => "ValueError"
  | .keyErrorExc _ => "KeyError"
  | .typeErrorExc _ => "TypeError"
  | .importError _ => "ImportError"
  | .otherExc name _ => name

/-- `str(e)` for the embedded exceptions (`KeyError` quoting of the missing
key is folded into the carried message). -/
def Exc.pyStr : Exc → String
  | .itbp _ msg _ _ _ => msg
  | .connectionError msg => msg
  | .timeoutError msg => msg
  | .permissionError msg => msg
  | .fileNotFoundError msg => msg
  | .valueError msg => msg
  | .keyErrorExc msg => msg
  | .typeErrorExc msg => msg
  | .importError msg => msg
  | .otherExc _ msg => msg

/-- `error_handling.py`, `create_user_error_message`: an `ITBPMethodError`
with a truthy `user_message` yields it; otherwise the builtin-type chain
applies; everything else gets the generic message. -/
def create_user_error_message : Exc → String
  | .itbp _ _ _ _ um =>
    if um == "" then "An unexpected error occurred. Please try again later." else um
  | .connectionError _ =>
    "A network error occurred. Please check your connection and try again."
  | .timeoutError _ =>
    "A network error occurred. Please check your connection and try again."
  | .permissionError _ => "You don\x27t have permission to perform this action."
  | .fileNotFoundError _ => "The requested file could not be found."
  | .valueError _ => "Invalid input provided. Please check your input and try again."
  | .keyErrorExc _ =>
    "A required value is missing. Please check your input and try again."
  | .typeErrorExc _ =>
    "An unexpected type error occurred. Please check your input and try again."
  | .importError _ => "An unexpected error occurred. Please try again later."
  | .otherExc _ _ => "An unexpected error occurred. Please try again later."

/-- `error_handling.py`, `classify_exception`. -/
def classify_exception : Exc → ErrorCategory
  | .itbp _ _ category _ _ => category
  | .connectionError _ => .NETWORK
  | .timeoutError _ => .NETWORK
  | .valueError _ => .VALIDATION
  | .typeErrorExc _ => .VALIDATION
  | .keyErrorExc _ => .VALIDATION
  | .fileNotFoundError _ => .RESOURCE
  | .permissionError _ => .RESOURCE
  | .importError _ => .CONFIGURATION
  | .otherExc _ _ => .INTERNAL

/-- `error_middleware.py`, `handle_tool_errors`: run the wrapped tool call;
return its result unchanged on success, and on any exception return the
structured failure dict (success flag, user message, `type(e).__name__`,
`str(e)`) instead of raising. The wrapped call's one outcome is passed in as
an `Except`; totality of this function is the "never raises" guarantee of
the `except Exception` handler. -/
def handle_tool_errors (result : Except Exc Value) : Value :=
  match result with
  | .ok r => r
  | .error e =>
    .vDict [("success", .vBool false),
            ("error", .vStr (create_user_error_message e)),
            ("error_type", .vStr e.pyName),
            ("error_details", .vStr e.pyStr)]

/-- C4: the tool middleware never raises (it is a total function of the
wrapped outcome); an operation that raises `ValidationError` produces the
structured failure dict with `success = false`, a non-empty user-facing
error string and error kind `ValidationError`; a successful operation's
result is returned unchanged. -/
theorem handle_tool_errors_spec (r : Value) (msg : String) (um : Option String) :
    handle_tool_errors (Except.ok r) = r
    ∧ ∃ s, s ≠ ""
      ∧ handle_tool_errors (Except.error (ValidationError msg um))
        = .vDict [("success", .vBool false), ("error", .vStr s),
                  ("error_type", .vStr "ValidationError"), ("error_details", .vStr msg)] := by
  refine ⟨rfl, create_user_error_message (ValidationError msg um), ?_, rfl⟩
  cases um with
  | none => simp [ValidationError, mkITBPError, create_user_error_message,
      getDefaultUserMessage]
  | some u =>
    by_cases hu : u = ""
    · simp [ValidationError, mkITBPError, create_user_error_message,
        getDefaultUserMessage, hu]
    · simp [ValidationError, mkITBPError, create_user_error_message, hu]

/- `error_handling.py`, `retry_on_error` (and its `async_retry_on_error`
twin with identical arithmetic): the delay computation and the retry loop.
Python floats are modelled as rationals; `attempt` below is the value after
the `attempt += 1` increment, exactly as in the source. -/

/-- The delay chain of `retry_on_error`: `NO_RETRY` breaks out of the loop
(no delay is computed — modelled as `none`); the other policies yield the
wait in seconds. The trailing Python `else: delay = 0` is unreachable, the
enum being closed. -/
def computeDelay (policy : RetryPolicy) (base_delay max_delay : ℚ) (attempt : ℕ) :
    Option ℚ :=
  match policy with
  | .NO_RETRY => none
  | .IMMEDIATE => some 0
  | .EXPONENTIAL_BACKOFF => some (min (base_delay * 2 ^ (attempt - 1)) max_delay)
  | .LINEAR_BACKOFF => some (min (base_delay * attempt) max_delay)
  | .CONSTANT_DELAY => some base_delay

/-- The `while attempt <= max_retries` loop of `retry_on_error`: `f n` is
the outcome of the attempt made when `attempt == n`; `retryExc e` is the
`except retry_exceptions` match (a non-matching exception propagates at
once). The result carries the returned value or the exception finally
raised, together with the list of delays slept, in order. -/
def retryLoop {α : Type} (f : ℕ → Except Exc α) (retryExc : Exc → Bool)
    (max_retries : ℕ) (policy : RetryPolicy) (base_delay max_delay : ℚ)
    (attempt : ℕ) (delays : List ℚ) : Option α × Option Exc × List ℚ :=
  if _h : attempt ≤ max_retries then
    match f attempt with
    | .ok v => (some v, none, delays)
    | .error e =>
      if retryExc e then
        if attempt + 1 > max_retries then (none, some e, delays)
        else
          match computeDelay policy base_delay max_delay (attempt + 1) with
          | none => (none, some e, delays)
          | some d =>
            retryLoop f retryExc max_retries policy base_delay max_delay
              (attempt + 1) (delays ++ [d])
      else (none, some e, delays)
  else (none, none, delays)
termination_by max_retries + 1 - attempt
decreasing_by omega

/-- Run `retry_on_error` from the start: attempt counter `0`, no delays
slept yet. -/
def retryRun {α : Type} (f : ℕ → Except Exc α) (retryExc : Exc → Bool)
    (max_retries : ℕ) (policy : RetryPolicy) (base_delay max_delay : ℚ) :
    Option α × Option Exc × List ℚ :=
  retryLoop f retryExc max_retries policy base_delay max_delay 0 []

/-- C5: for every attempt number `n ≥ 1` the computed wait is
`min(base·2^(n-1), max)` under `EXPONENTIAL_BACKOFF`, `min(base·n, max)`
under `LINEAR_BACKOFF`, `base` under `CONSTANT_DELAY`, `0` under
`IMMEDIATE`, and `NO_RETRY` aborts at once (the loop sleeps no delay and
re-raises after the first failure); with `base_delay = 1`, `max_delay = 60`
attempts 1..5 yield delays `1, 2, 4, 8, 16`, and with `max_delay = 10` they
yield `1, 2, 4, 8, 10`. -/
theorem retry_delay_spec (base_delay max_delay : ℚ) (n : ℕ) (_hn : 1 ≤ n) :
    computeDelay .EXPONENTIAL_BACKOFF base_delay max_delay n
        = some (min (base_delay * 2 ^ (n - 1)) max_delay)
    ∧ computeDelay .LINEAR_BACKOFF base_delay max_delay n
        = some (min (base_delay * n) max_delay)
    ∧ computeDelay .CONSTANT_DELAY base_delay max_delay n = some base_delay
    ∧ computeDelay .IMMEDIATE base_delay max_delay n = some 0
    ∧ computeDelay .NO_RETRY base_delay max_delay n = none
    ∧ ((List.range 5).map (fun i => computeDelay .EXPONENTIAL_BACKOFF 1 60 (i + 1))
        = [some 1, some 2, some 4, some 8, some 16])
    ∧ ((List.range 5).map (fun i => computeDelay .EXPONENTIAL_BACKOFF 1 10 (i + 1))
        = [some 1, some 2, some 4, some 8, some 10])
    ∧ (∀ (e : Exc) (mr : ℕ),
        retryRun (fun _ => (Except.error e : Except Exc Value)) (fun _ => true)
          mr .NO_RETRY base_delay max_delay = (none, some e, [])) := by
  refine ⟨rfl, rfl, rfl, rfl, rfl, by norm_num [computeDelay, List.range_succ], ?_, ?_⟩
  · norm_num [computeDelay, List.range_succ]
  · intro e mr
    rw [retryRun, retryLoop]
    have h0 : 0 ≤ mr := Nat.zero_le mr
    rw [dif_pos h0]
    by_cases hmr : 0 + 1 > mr
    · simp [hmr]
    · simp [hmr, computeDelay]

/-- C5 witness: the delay theorem applied at attempt `3`. -/
theorem retry_delay_spec_witness :
    computeDelay .EXPONENTIAL_BACKOFF 1 60 3 = some (min ((1 : ℚ) * 2 ^ (3 - 1)) 60) :=
  (retry_delay_spec 1 60 3 (by norm_num)).1

/- `tools/deep_research.py`, `SearchCache`: the in-memory result cache.
`time.time()` values are passed in as the explicit parameter `now`
(rationals model the float clock). -/

/-- The cache state: the `_cache` and `_timestamps` dicts plus the two
configuration fields (`SearchCache()` is instantiated with the defaults
`max_size = 100`, `ttl_seconds = 3600`). -/
structure SearchCache where
  _cache : Dict Value
  _timestamps : Dict ℚ
  _max_size : ℕ
  _ttl_seconds : ℚ
  deriving Repr

/-- The module-level `search_cache = SearchCache()`. -/
def search_cache : SearchCache := ⟨[], [], 100, 3600⟩

/-- `min(iterable, key=get)` over the remaining bindings, keeping the first
binding among equal values — Python's `min` over the dict's keys in
insertion order with the timestamps as sort key. -/
def argminAux : List (String × ℚ) → (String × ℚ) → (String × ℚ)
  | [], best => best
  | p :: rest, best => if p.2 < best.2 then argminAux rest p else argminAux rest best

/-- `min(self._timestamps, key=self._timestamps.get)`: the key with the
smallest timestamp (`none` on an empty dict, where Python raises
`ValueError`). -/
def argminKey (ts : Dict ℚ) : Option String :=
  match ts with
  | [] => none
  | p :: rest => some (argminAux rest p).1

/-- `SearchCache.set`: when the cache has reached `_max_size` entries, first
delete the oldest-timestamped entry from both dicts, then store the value
and its insertion timestamp. (On an empty `_timestamps` the Python `min`
would raise `ValueError`; that branch keeps the cache unchanged and is
unreachable for `_max_size ≥ 1`.) -/
def SearchCache.set (c : SearchCache) (key : String) (value : Value) (now : ℚ) :
    SearchCache :=
  let c1 := if c._cache.length ≥ c._max_size then
      match argminKey c._timestamps with
      | some oldest =>
        { c with _cache := Dict.erase c._cache oldest,
                 _timestamps := Dict.erase c._timestamps oldest }
      | none => c
    else c
  { c1 with _cache := Dict.insert c1._cache key value,
            _timestamps := Dict.insert c1._timestamps key now }

/-- `SearchCache.get`: a miss returns `None`; a hit whose age exceeds
`_ttl_seconds` deletes the entry and returns `None`; a fresh hit returns the
value and leaves the cache — in particular the timestamps that order
eviction — untouched. -/
def SearchCache.get (c : SearchCache) (key : String) (now : ℚ) :
    Option Value × SearchCache :=
  match Dict.lookup c._cache key with
  | none => (none, c)
  | some v =>
    if now - ((Dict.lookup c._timestamps key).getD 0) > c._ttl_seconds then
      (none, { c with _cache := Dict.erase c._cache key,
                      _timestamps := Dict.erase c._timestamps key })
    else (some v, c)

/-- The dict invariant Python maintains for `SearchCache`: `_cache` and
`_timestamps` always hold the same keys, in the same insertion order, and
keys are unique. -/
def SearchCache.wf (c : SearchCache) : Prop :=
  c._cache.map Prod.fst = c._timestamps.map Prod.fst
  ∧ (c._cache.map Prod.fst).Nodup

theorem argminAux_spec (rest : List (String × ℚ)) (best : String × ℚ) :
    (argminAux rest best = best ∨ argminAux rest best ∈ rest)
    ∧ (argminAux rest best).2 ≤ best.2
    ∧ (∀ q ∈ rest, (argminAux rest best).2 ≤ q.2) := by
  induction rest generalizing best with
  | nil => exact ⟨Or.inl rfl, le_refl _, fun q hq => absurd hq (List.not_mem_nil q)⟩
  | cons p rest ih =>
    by_cases hlt : p.2 < best.2
    · obtain ⟨hmem, hle, hall⟩ := ih p
      rw [argminAux, if_pos hlt]
      refine ⟨?_, le_trans hle hlt.le, ?_⟩
      · rcases hmem with he | hm
        · exact Or.inr (by rw [he]; exact List.mem_cons_self p rest)
        · exact Or.inr (List.mem_cons_of_mem p hm)
      · intro q hq
        rcases List.mem_cons.mp hq with he | hm
        · exact he ▸ hle
        · exact hall q hm
    · obtain ⟨hmem, hle, hall⟩ := ih best
      rw [argminAux, if_neg hlt]
      refine ⟨?_, hle, ?_⟩
      · rcases hmem with he | hm
        · exact Or.inl he
        · exact Or.inr (List.mem_cons_of_mem p hm)
      · intro q hq
        rcases List.mem_cons.mp hq with he | hm
        · exact he ▸ (le_trans hle (not_lt.mp hlt))
        · exact hall q hm

/-- The key returned by `argminKey` is bound in the dict and its timestamp
is minimal. -/
theorem argminKey_spec (ts : Dict ℚ) {k : String} (h : argminKey ts = some k) :
    ∃ t, (k, t) ∈ ts ∧ ∀ q ∈ ts, t ≤ q.2 := by
  match ts, h with
  | p :: rest, h =>
    rw [argminKey] at h
    injection h with h
    obtain ⟨hmem, hle, hall⟩ := argminAux_spec rest p
    refine ⟨(argminAux rest p).2, ?_, ?_⟩
    · rw [← h]
      rcases hmem with he | hm
      · rw [he]
        exact List.mem_cons_self p rest
      · exact List.mem_cons_of_mem p hm
    · intro q hq
      rcases List.mem_cons.mp hq with he | hm
      · exact he ▸ hle
      · exact hall q hm

/-- A well-formed cache with at least one entry has an argmin key. -/
theorem argminKey_isSome_of_wf {c : SearchCache} (hwf : c.wf)
    (hlen : 1 ≤ c._cache.length) : ∃ k, argminKey c._timestamps = some k := by
  rcases hts : c._timestamps with _ | ⟨p, rest⟩
  · exfalso
    have h1 := congrArg List.length hwf.1
    rw [hts] at h1
    simp only [List.length_map, List.length_nil] at h1
    omega
  · exact ⟨(argminAux rest p).1, rfl⟩

/-- The cache after a full-cache `set`: oldest entry erased from both dicts,
then the new binding inserted. -/
theorem set_full_eq (c : SearchCache) (key : String) (value : Value) (now : ℚ)
    {oldest : String} (hfull : c._max_size ≤ c._cache.length)
    (ham : argminKey c._timestamps = some oldest) :
    (c.set key value now)._cache
      = Dict.insert (Dict.erase c._cache oldest) key value := by
  rw [SearchCache.set]
  simp only [ge_iff_le, hfull, if_true, ham]

/-- C6: a `set` on a cache whose entry count has reached capacity evicts
exactly one entry — the oldest-inserted one (minimal stored timestamp; `get`
never refreshes timestamps, so this is insertion-order FIFO, not
least-recently-read LRU) — before inserting the new entry: the oldest key is
gone, the new key is stored, every other entry is untouched, and a
non-expired read leaves the cache unchanged. -/
theorem cache_set_evicts_oldest (c : SearchCache) (key : String) (value : Value)
    (now : ℚ) (hwf : c.wf) (hmax : 1 ≤ c._max_size)
    (hfull : c._max_size ≤ c._cache.length) :
    ∃ oldest tOld,
      Dict.lookup c._timestamps oldest = some tOld
      ∧ (∀ k t, Dict.lookup c._timestamps k = some t → tOld ≤ t)
      ∧ (oldest ≠ key → Dict.lookup (c.set key value now)._cache oldest = none)
      ∧ Dict.lookup (c.set key value now)._cache key = some value
      ∧ (∀ k, k ≠ oldest → k ≠ key →
          Dict.lookup (c.set key value now)._cache k = Dict.lookup c._cache k)
      ∧ (∀ k now2, (c.get k now2).2 = c ∨ (c.get k now2).1 = none) := by
  obtain ⟨oldest, ham⟩ := argminKey_isSome_of_wf hwf (le_trans hmax hfull)
  obtain ⟨tOld, hmem, hmin⟩ := argminKey_spec c._timestamps ham
  have hndts : (c._timestamps.map Prod.fst).Nodup := hwf.1 ▸ hwf.2
  have hsetc := set_full_eq c key value now hfull ham
  refine ⟨oldest, tOld, Dict.lookup_of_mem_nodup hmem hndts, ?_, ?_, ?_, ?_, ?_⟩
  · intro k t hkt
    exact hmin (k, t) (Dict.mem_of_lookup_eq_some hkt)
  · intro hok
    rw [hsetc, Dict.lookup_insert_ne _ _ hok, Dict.lookup_erase_self]
  · rw [hsetc, Dict.lookup_insert_self]
  · intro k hko hkk
    rw [hsetc, Dict.lookup_insert_ne _ _ hkk, Dict.lookup_erase_ne _ hko]
  · intro k now2
    rcases hl : Dict.lookup c._cache k with _ | v
    · left
      simp [SearchCache.get, hl]
    · by_cases hexp : now2 - ((Dict.lookup c._timestamps k).getD 0) > c._ttl_seconds
      · right
        simp [SearchCache.get, hl, hexp]
      · left
        simp [SearchCache.get, hl, hexp]

/-- A concrete two-entry cache at capacity, for the cache witnesses. -/
def cacheAtCapacity : SearchCache :=
  ⟨[("a", .vStr "ra"), ("b", .vStr "rb")], [("a", 1), ("b", 2)], 2, 3600⟩

/-- C6 witness: the eviction theorem applied to the concrete full cache and
a fresh key. -/
theorem cache_set_evicts_oldest_witness :
    ∃ oldest tOld,
      Dict.lookup cacheAtCapacity._timestamps oldest = some tOld
      ∧ (∀ k t, Dict.lookup cacheAtCapacity._timestamps k = some t → tOld ≤ t)
      ∧ (oldest ≠ "c" →
          Dict.lookup (cacheAtCapacity.set "c" (.vStr "rc") 10)._cache oldest = none)
      ∧ Dict.lookup (cacheAtCapacity.set "c" (.vStr "rc") 10)._cache "c"
          = some (.vStr "rc")
      ∧ (∀ k, k ≠ oldest → k ≠ "c" →
          Dict.lookup (cacheAtCapacity.set "c" (.vStr "rc") 10)._cache k
            = Dict.lookup cacheAtCapacity._cache k)
      ∧ (∀ k now2, (cacheAtCapacity.get k now2).2 = cacheAtCapacity
          ∨ (cacheAtCapacity.get k now2).1 = none) :=
  cache_set_evicts_oldest cacheAtCapacity "c" (.vStr "rc") 10
    ⟨by decide, by decide⟩ (by decide) (by decide)

/-- C10: a `set` on a full cache evicts the oldest-timestamped entry even
when the written key is already present: overwriting an existing key whose
timestamp is not the minimum removes the unrelated oldest entry and shrinks
the cache by one. -/
theorem cache_set_overwrite_shrinks (c : SearchCache) (key : String) (value : Value)
    (now : ℚ) (v0 : Value) (hwf : c.wf) (hfull : c._max_size ≤ c._cache.length)
    (hk : Dict.lookup c._cache key = some v0)
    (hold : argminKey c._timestamps ≠ some key) :
    ∃ oldest, argminKey c._timestamps = some oldest ∧ oldest ≠ key
      ∧ Dict.lookup (c.set key value now)._cache oldest = none
      ∧ Dict.lookup (c.set key value now)._cache key = some value
      ∧ (c.set key value now)._cache.length + 1 = c._cache.length := by
  have hlen : 1 ≤ c._cache.length := by
    rcases hc : c._cache with _ | ⟨p, d⟩
    · rw [hc] at hk
      cases hk
    · simp
  obtain ⟨oldest, ham⟩ := argminKey_isSome_of_wf hwf hlen
  have hone : oldest ≠ key := fun he => hold (he ▸ ham)
  obtain ⟨tOld, hmem, _⟩ := argminKey_spec c._timestamps ham
  have hsetc := set_full_eq c key value now hfull ham
  have hoc : Dict.hasKey c._cache oldest = true := by
    rw [Dict.hasKey_iff_mem_keys, hwf.1]
    exact List.mem_map.mpr ⟨(oldest, tOld), hmem, rfl⟩
  have hko : Dict.hasKey (Dict.erase c._cache oldest) key = true := by
    have he := @Dict.lookup_erase_ne Value c._cache key oldest (Ne.symm hone)
    rw [hk] at he
    exact Dict.hasKey_of_lookup_eq_some he
  refine ⟨oldest, ham, hone, ?_, ?_, ?_⟩
  · rw [hsetc, Dict.lookup_insert_ne _ _ hone, Dict.lookup_erase_self]
  · rw [hsetc, Dict.lookup_insert_self]
  · rw [hsetc, Dict.length_insert_of_hasKey _ _ _ hko]
    exact Dict.length_erase_of_nodup c._cache oldest hwf.2 hoc

/-- C10 witness: the theorem applied to the concrete full cache, overwriting
the newer of its two keys. -/
theorem cache_set_overwrite_shrinks_witness :
    ∃ oldest, argminKey cacheAtCapacity._timestamps = some oldest ∧ oldest ≠ "b"
      ∧ Dict.lookup (cacheAtCapacity.set "b" (.vStr "newb") 10)._cache oldest = none
      ∧ Dict.lookup (cacheAtCapacity.set "b" (.vStr "newb") 10)._cache "b"
          = some (.vStr "newb")
      ∧ (cacheAtCapacity.set "b" (.vStr "newb") 10)._cache.length + 1
          = cacheAtCapacity._cache.length :=
  cache_set_overwrite_shrinks cacheAtCapacity "b" (.vStr "newb") 10 (.vStr "rb")
    ⟨by decide, by decide⟩ (by decide) rfl
    (by
      intro h
      have h2 : some "a" = some "b" := h
      injection h2 with h2
      exact absurd h2 (by decide))

end ITBP


